import Mathlib

/-!
# Verification of the BLINk_DB key–value store

Shallow embedding of the repository's two subsystems:

* `src/part-b/src/storage_engine.h` — `LRUCache` (raw-pointer doubly linked
  list + hash map), `DiskStorage` (text file of `key=value` lines), and
  `StorageEngine` (cache + disk + write-behind queue).
* `src/part-b/src/network_server.cpp` — the RESP-style frame parser
  (`Server::handle_client_data`) and command dispatcher
  (`Server::process_command`).
* `src/part-a/src/storage_engine.cpp` — the binary-log engine
  (`data.dat` records, disk index, corruption checks on read).

Strings are modelled as `List Char` (part-b, where data flows through
`std::string` text processing) and raw bytes as `List Nat` (part-a, where
records are written and read as binary).

Modelling conventions, stated once:
* `delete` of a list node is modelled as leaving the node's bytes in place in
  the heap (ids are never reused), matching a concrete execution in which
  freed memory is not recycled; a write through a dangling pointer therefore
  updates that stale slot and nothing else.
* a write through a null pointer (a crash in C++) is modelled as a no-op;
  no theorem below depends on behaviour at a null dereference.
* the OS is elided: reads hand the parser arbitrary chunks, replies are
  collected in order; `std::stoi` throwing (uncaught, fatal) is modelled by
  an explicit crash outcome.
-/

/-! ## Association-list helpers (model of `std::unordered_map` / `std::map`) -/

def assocFind {α β : Type} [DecidableEq α] : List (α × β) → α → Option β
  | [], _ => none
  | (a, b) :: rest, k => if a = k then some b else assocFind rest k

def assocUpsert {α β : Type} [DecidableEq α] : List (α × β) → α → β → List (α × β)
  | [], k, v => [(k, v)]
  | (a, b) :: rest, k, v =>
      if a = k then (a, v) :: rest else (a, b) :: assocUpsert rest k v

def assocErase {α β : Type} [DecidableEq α] : List (α × β) → α → List (α × β)
  | [], _ => []
  | (a, b) :: rest, k =>
      if a = k then rest else (a, b) :: assocErase rest k

/-! ## LRUCache (part-b `storage_engine.h`, lines 21–140)

The C++ class keeps a `std::unordered_map<std::string, Node*>` and a doubly
linked list of heap nodes with raw `head_` / `tail_` pointers.  The heap is
modelled as an association list from node id to node contents; `delete`
leaves the slot's contents in place (see the conventions above). -/

structure LRUNode where
  key : List Char
  value : List Char
  prev : Option Nat
  next : Option Nat
deriving DecidableEq, Repr

structure LRUCache where
  capacity : Nat
  heap : List (Nat × LRUNode)
  cache : List (List Char × Nat)
  head : Option Nat
  tail : Option Nat
  nextId : Nat
deriving DecidableEq, Repr

def LRUCache.empty (cap : Nat) : LRUCache :=
  { capacity := cap, heap := [], cache := [], head := none, tail := none, nextId := 0 }

def lruNodeAt (s : LRUCache) (i : Nat) : LRUNode :=
  (assocFind s.heap i).getD ⟨[], [], none, none⟩

/-- Write the `prev` field of the node `p` points at; null pointer is a no-op. -/
def writePrev (s : LRUCache) (p : Option Nat) (v : Option Nat) : LRUCache :=
  match p with
  | none => s
  | some i =>
      { s with heap := assocUpsert s.heap i { lruNodeAt s i with prev := v } }

/-- Write the `next` field of the node `p` points at; null pointer is a no-op. -/
def writeNext (s : LRUCache) (p : Option Nat) (v : Option Nat) : LRUCache :=
  match p with
  | none => s
  | some i =>
      { s with heap := assocUpsert s.heap i { lruNodeAt s i with next := v } }

/-- Write the `value` field of node `i` (the `it->second->value = value` line). -/
def writeValue (s : LRUCache) (i : Nat) (v : List Char) : LRUCache :=
  { s with heap := assocUpsert s.heap i { lruNodeAt s i with value := v } }

/-- `LRUCache::move_to_front` (lines 38–53). -/
def LRUCache.move_to_front (s : LRUCache) (i : Nat) : LRUCache :=
  if s.head = some i then s
  else
    let nd := lruNodeAt s i
    let s1 :=
      if s.tail = some i then
        writeNext { s with tail := nd.prev } nd.prev none
      else
        writePrev (writeNext s nd.prev nd.next) nd.next nd.prev
    let s2 := writePrev s1 (some i) none
    let s3 := writeNext s2 (some i) s.head
    let s4 := writePrev s3 s.head (some i)
    { s4 with head := some i }

/-- `LRUCache::evict_lru` (lines 55–63).  Note the source updates `tail_` but
never `head_`; when the evicted node was also the head, `head_` is left
dangling at the freed node. -/
def LRUCache.evict_lru (s : LRUCache) : LRUCache :=
  match s.tail with
  | none => s
  | some t =>
      let nd := lruNodeAt s t
      let s1 := { s with cache := assocErase s.cache nd.key }
      let s2 := { s1 with tail := nd.prev }
      writeNext s2 nd.prev none

/-- `LRUCache::get` (lines 80–89): on hit, `move_to_front` then read the value. -/
def LRUCache.get (s : LRUCache) (k : List Char) : Option (List Char) × LRUCache :=
  match assocFind s.cache k with
  | some i =>
      let s' := s.move_to_front i
      (some (lruNodeAt s' i).value, s')
  | none => (none, s)

/-- `LRUCache::put` (lines 91–116). -/
def LRUCache.put (s : LRUCache) (k v : List Char) : Bool × LRUCache :=
  match assocFind s.cache k with
  | some i => (true, (writeValue s i v).move_to_front i)
  | none =>
      let s1 := if s.cache.length ≥ s.capacity then s.evict_lru else s
      let i := s1.nextId
      let s2 := { s1 with
                    heap := (i, ⟨k, v, none, none⟩) :: s1.heap,
                    cache := (k, i) :: s1.cache,
                    nextId := i + 1 }
      match s2.head with
      | none => (true, { s2 with head := some i, tail := some i })
      | some _ =>
          let s3 := writeNext s2 (some i) s2.head
          let s4 := writePrev s3 s2.head (some i)
          (true, { s4 with head := some i })

/-- `LRUCache::remove` (lines 118–139). -/
def LRUCache.remove (s : LRUCache) (k : List Char) : Bool × LRUCache :=
  match assocFind s.cache k with
  | none => (false, s)
  | some i =>
      let nd := lruNodeAt s i
      let s1 :=
        if s.head = some i then
          match nd.next with
          | some h => writePrev { s with head := nd.next } (some h) none
          | none => { s with head := none, tail := none }
        else if s.tail = some i then
          writeNext { s with tail := nd.prev } nd.prev none
        else
          writePrev (writeNext s nd.prev nd.next) nd.next nd.prev
      (true, { s1 with cache := assocErase s1.cache k })

def LRUCache.size (s : LRUCache) : Nat := s.cache.length

/-! ## DiskStorage (part-b `storage_engine.h`, lines 142–236)

`DiskStorage` keeps `std::unordered_map<std::string, std::string> data_`
and mirrors it to a text file: `save_data` rewrites the whole file as
`key=value` lines (lines 187–195) after every mutation, and `load_data`
(lines 171–185) re-reads it with `getline` + `find('=')`.  The map is
modelled as an insertion-ordered association list; the file contents are
always `renderDisk` of the map, since every mutation saves. -/

abbrev DiskMap : Type := List (List Char × List Char)

/-- `DiskStorage::save_data`: one `key=value\n` line per entry. -/
def renderDisk (m : DiskMap) : List Char :=
  (m.map (fun e => e.1 ++ '=' :: e.2 ++ ['\n'])).flatten

/-- `std::getline` over the whole file: split at `'\n'`, final unterminated
line still delivered, empty trailing line dropped. -/
def getLines : List Char → List (List Char)
  | [] => []
  | '\n' :: rest => [] :: getLines rest
  | c :: rest =>
      match getLines rest with
      | [] => [[c]]
      | l :: ls => (c :: l) :: ls

/-- `line.find('=')` + the two `substr` calls: split at the first `'='`. -/
def splitAtEq : List Char → Option (List Char × List Char)
  | [] => none
  | '=' :: rest => some ([], rest)
  | c :: rest => (splitAtEq rest).map (fun p => (c :: p.1, p.2))

/-- `DiskStorage::load_data`: process each line in order, `data_[key] = value`. -/
def loadLines : List (List Char) → DiskMap → DiskMap
  | [], acc => acc
  | line :: rest, acc =>
      match splitAtEq line with
      | some (k, v) => loadLines rest (assocUpsert acc k v)
      | none => loadLines rest acc

def loadDisk (file : List Char) : DiskMap := loadLines (getLines file) []

/-! ## StorageEngine (part-b `storage_engine.h`, lines 238–390)

State: the cache, the disk map, and the write-behind queue.  The worker
thread's single iteration (`async_write_worker`, lines 366–381: dequeue one
entry, `disk_storage_->put`) is exposed as `workerStep`, so a concurrent
execution is an interleaving of client operations and `workerStep`s. -/

structure Engine where
  lru : LRUCache
  disk : DiskMap
  queue : List (List Char × List Char)
deriving DecidableEq

/-- `StorageEngine::StorageEngine` with a freshly loaded (empty) disk; the
server's default constructor uses `cache_size = 1`. -/
def Engine.empty (cap : Nat) : Engine :=
  { lru := LRUCache.empty cap, disk := [], queue := [] }

/-- `DiskStorage::put`: `data_[key] = value; save_data();`. -/
def diskPut (m : DiskMap) (k v : List Char) : DiskMap := assocUpsert m k v

/-- `StorageEngine::put` (lines 349–363): cache put (always succeeds), then
enqueue the pair for the write-behind worker. -/
def Engine.put (e : Engine) (k v : List Char) : Bool × Engine :=
  let (ok, lru') := e.lru.put k v
  if ok then (true, { e with lru := lru', queue := e.queue ++ [(k, v)] })
  else (true, { e with lru := lru', disk := diskPut e.disk k v })

/-- `StorageEngine::get(key, value)` (lines 275–288): cache first, then disk;
a disk hit repopulates the cache. -/
def Engine.get (e : Engine) (k : List Char) : Option (List Char) × Engine :=
  match e.lru.get k with
  | (some v, lru') => (some v, { e with lru := lru' })
  | (none, lru') =>
      match assocFind e.disk k with
      | some v =>
          let (_, lru'') := lru'.put k v
          (some v, { e with lru := lru'' })
      | none => (none, { e with lru := lru' })

/-- `std::string StorageEngine::get(key)` (lines 267–273): `""` on miss. -/
def Engine.getStr (e : Engine) (k : List Char) : List Char × Engine :=
  match e.get k with
  | (some v, e') => (v, e')
  | (none, e') => ([], e')

/-- `StorageEngine::del` (lines 290–312): probe the cache (a `get`, which
promotes) then remove; probe the disk then remove.  The pending-write queue
is left untouched. -/
def Engine.del (e : Engine) (k : List Char) : Bool × Engine :=
  let (hit, lru') := e.lru.get k
  let (exists1, lru'') :=
    match hit with
    | some _ => (true, (lru'.remove k).2)
    | none => (false, lru')
  match assocFind e.disk k with
  | some _ => (true, { e with lru := lru'', disk := assocErase e.disk k })
  | none => (exists1, { e with lru := lru'' })

/-- One iteration of `StorageEngine::async_write_worker` (lines 366–381),
taken when the queue is non-empty: pop the front pair, write it to disk. -/
def Engine.workerStep (e : Engine) : Engine :=
  match e.queue with
  | [] => e
  | (k, v) :: rest => { e with disk := diskPut e.disk k v, queue := rest }

/-- `StorageEngine::force_flush` / `sync` (lines 319–334): drain the whole
queue into the disk map, front first. -/
def Engine.sync (e : Engine) : Engine :=
  { e with disk := e.queue.foldl (fun d p => diskPut d p.1 p.2) e.disk, queue := [] }

/-- A full process restart: the file holds `renderDisk e.disk` (every
mutation saved it), the new engine reloads it with `load_data` into a fresh
cache and an empty queue. -/
def Engine.restart (e : Engine) (cap : Nat) : Engine :=
  { lru := LRUCache.empty cap, disk := loadDisk (renderDisk e.disk), queue := [] }

/-! ## Wire codec (part-b `network_server.cpp`)

Buffers are `List Char`.  `splitCRLF` models `find("\r\n")` plus the two
`substr` calls, `stoi` models `std::stoi` (`none` = it throws), `tokens`
models repeated `operator>>` extraction from an `istringstream`. -/

def isSpaceCh (c : Char) : Bool :=
  c == ' ' || c == '\t' || c == '\n' || c == '\x0b' || c == '\x0c' || c == '\r'

/-- Split the buffer at the first `"\r\n"`, as
`find("\r\n")` / `substr(0, pos)` / `substr(pos + 2)` do. -/
def splitCRLF : List Char → Option (List Char × List Char)
  | '\r' :: '\n' :: rest => some ([], rest)
  | c :: rest => (splitCRLF rest).map (fun p => (c :: p.1, p.2))
  | [] => none

def dchar : Nat → Char
  | 0 => '0' | 1 => '1' | 2 => '2' | 3 => '3' | 4 => '4'
  | 5 => '5' | 6 => '6' | 7 => '7' | 8 => '8' | _ => '9'

def natStrAux : Nat → Nat → List Char → List Char
  | 0, _, acc => acc
  | fuel + 1, n, acc =>
      if n < 10 then dchar n :: acc
      else natStrAux fuel (n / 10) (dchar (n % 10) :: acc)

/-- Decimal representation of a natural number (as `std::to_string`). -/
def natStr (n : Nat) : List Char := natStrAux (n + 1) n []

/-- Value of the leading run of decimal digits, left to right. -/
def digitsVal : List Char → Nat → Nat
  | c :: rest, acc => if c.isDigit then digitsVal rest (acc * 10 + (c.toNat - 48)) else acc
  | [], acc => acc

def headIsDigit : List Char → Bool
  | c :: _ => c.isDigit
  | [] => false

/-- `std::stoi`: skip whitespace, optional sign, at least one digit
(`none` = `std::invalid_argument` is thrown). -/
def stoi (s : List Char) : Option Int :=
  match s.dropWhile isSpaceCh with
  | '-' :: r => if headIsDigit r then some (-(digitsVal r 0 : Int)) else none
  | '+' :: r => if headIsDigit r then some ((digitsVal r 0 : Int)) else none
  | r => if headIsDigit r then some ((digitsVal r 0 : Int)) else none

def toUpperCh (c : Char) : Char :=
  if 'a' ≤ c ∧ c ≤ 'z' then Char.ofNat (c.toNat - 32) else c

/-- Whitespace-separated tokens, as successive `iss >> word` extractions
deliver them. -/
def tokens : List Char → List (List Char)
  | [] => []
  | c :: rest =>
      let ts := tokens rest
      if isSpaceCh c then ts
      else
        match rest with
        | [] => [[c]]
        | d :: _ =>
            if isSpaceCh d then [c] :: ts
            else
              match ts with
              | t :: ts' => (c :: t) :: ts'
              | [] => [[c]]

/-- `command = args[0]; for i ≥ 1: command += " " + args[i];`
(`network_server.cpp` lines 197–200). -/
def joinSpace : List (List Char) → List Char
  | [] => []
  | a :: rest => a ++ (rest.map (fun x => ' ' :: x)).flatten

def crlf : List Char := ['\r', '\n']

/-- The reply `process_command` builds for a GET: `$-1\r\n` when the value
string is empty (miss, or the stored value is empty), else a bulk string. -/
def respGet (v : List Char) : List Char :=
  if v = [] then ('$' :: '-' :: '1' :: crlf)
  else '$' :: natStr v.length ++ crlf ++ v ++ crlf

/-- `Server::process_command` (lines 255–316).  Returns the encoded reply and
the engine after the dispatched storage call.  The `EXIT` shutdown flag has
no bearing on any claim and is not tracked. -/
def process_command (e : Engine) (command : List Char) : List Char × Engine :=
  let toks := tokens command
  let cmd := toks.headD []
  let upper := cmd.map toUpperCh
  if upper = "PING".data then ("+PONG\r\n".data, e)
  else if upper = "SET".data then
    let key := toks.getD 1 []
    let value := toks.getD 2 []
    if key = [] ∨ value = [] then
      ("-ERR wrong number of arguments for 'set' command\r\n".data, e)
    else
      let (ok, e') := e.put key value
      if ok then ("+OK\r\n".data, e') else ("-ERR invalid key or value\r\n".data, e')
  else if upper = "GET".data then
    let key := toks.getD 1 []
    if key = [] then
      ("-ERR wrong number of arguments for 'get' command\r\n".data, e)
    else
      let (v, e') := e.getStr key
      (respGet v, e')
  else if upper = "DEL".data then
    let key := toks.getD 1 []
    if key = [] then
      ("-ERR wrong number of arguments for 'del' command\r\n".data, e)
    else
      let (ok, e') := e.del key
      (if ok then ":1\r\n".data else ":0\r\n".data, e')
  else if upper = "CLEAR".data ∨ upper = "FLUSHALL".data ∨ upper = "FLUSHDB".data then
    -- `clear()` replaces the cache and constructs a fresh `DiskStorage`,
    -- which reloads the still-present data file (lines 314–317).
    ("+OK\r\n".data,
      { lru := LRUCache.empty e.lru.capacity, disk := loadDisk (renderDisk e.disk),
        queue := e.queue })
  else if upper = "EXIT".data then ("+OK\r\n".data, e)
  else ("-ERR unknown command '".data ++ cmd ++ "'\r\n".data, e)

/-- Result of the bulk-argument `for` loop (lines 162–191): arguments so far
plus the buffer as consumed, a break for more data with the buffer as
consumed, or a fatal `std::stoi` throw. -/
inductive ArgsRes where
  | done (args : List (List Char)) (buf : List Char)
  | incomplete (buf : List Char)
  | crash
deriving DecidableEq, Repr

/-- The bulk-argument loop.  Each iteration consumes the `$<len>` header line
before validating it; on any `complete = false` path the already-consumed
bytes stay consumed.  A negative declared length pushes an empty argument and
consumes nothing past the header (lines 178–182). -/
def parseArgs : Nat → List Char → List (List Char) → ArgsRes
  | 0, buf, args => .done args buf
  | n + 1, buf, args =>
      match splitCRLF buf with
      | none => .incomplete buf
      | some (line, rest) =>
          match line with
          | [] => .incomplete rest
          | c :: lenStr =>
              if c ≠ '$' then .incomplete rest
              else
                match stoi lenStr with
                | none => .crash
                | some len =>
                    if len < 0 then parseArgs n rest (args ++ [[]])
                    else
                      if rest.length < len.toNat + 2 then .incomplete rest
                      else parseArgs n (rest.drop (len.toNat + 2)) (args ++ [rest.take len.toNat])

/-- The `while (true)` command loop of `Server::handle_client_data`
(lines 145–245), run to completion on the current buffer: returns the replies
written (in order), the engine, the leftover buffer, and whether an uncaught
`std::stoi` exception killed the handler.  `fuel` bounds the number of loop
iterations; each productive iteration consumes at least two bytes, so any
`fuel ≥ buf.length` computes the loop's actual fixpoint. -/
def processBuf : Nat → Engine → List Char → List (List Char) →
    List (List Char) × Engine × List Char × Bool
  | 0, e, buf, acc => (acc, e, buf, false)
  | fuel + 1, e, buf, acc =>
      match splitCRLF buf with
      | none => (acc, e, buf, false)
      | some (line, rest) =>
          match line with
          | [] => processBuf fuel e rest acc
          | '*' :: numStr =>
              match stoi numStr with
              | none => (acc, e, rest, true)
              | some n =>
                  match parseArgs n.toNat rest [] with
                  | .crash => (acc, e, [], true)
                  | .incomplete buf' => (acc, e, buf', false)
                  | .done args buf' =>
                      if args.isEmpty then processBuf fuel e buf' acc
                      else
                        let (resp, e') := process_command e (joinSpace args)
                        processBuf fuel e' buf' (acc ++ [resp])
          | _ =>
              let (resp, e') := process_command e line
              processBuf fuel e' rest (acc ++ [resp])

/-- Feed successive read chunks to the server: each chunk is appended to the
per-connection buffer and the command loop runs; replies accumulate across
chunks. -/
def feedChunks : Engine → List Char → List (List Char) →
    List (List Char) × Engine × List Char
  | e, buf, [] => ([], e, buf)
  | e, buf, chunk :: rest =>
      let buf1 := buf ++ chunk
      let (rs, e', buf', crashed) := processBuf (buf1.length + 1) e buf1 []
      if crashed then (rs, e', buf')
      else
        let (rs', e'', buf'') := feedChunks e' buf' rest
        (rs ++ rs', e'', buf'')

/-- `$<L>\r\n<payload>\r\n` — one bulk string of a request frame. -/
def encBulk (s : List Char) : List Char :=
  '$' :: natStr s.length ++ crlf ++ s ++ crlf

/-- `*<N>\r\n` then the bulk-encoded elements — one request frame. -/
def encFrame (args : List (List Char)) : List Char :=
  '*' :: natStr args.length ++ crlf ++ (args.map encBulk).flatten

/-! ## Part-a storage engine (`src/part-a/src/storage_engine.cpp`)

Keys, values and the `data.dat` log are raw byte sequences, modelled as
`List Nat`.  `u32` fields are written little-endian. -/

/-- Little-endian `u32` as four bytes (what `outfile.write(&len, 4)` emits on
a little-endian machine). -/
def enc32 (n : Nat) : List Nat :=
  [n % 256, n / 256 % 256, n / 65536 % 256, n / 16777216 % 256]

/-- Read back a (4-byte) little-endian `u32`. -/
def dec32 (bs : List Nat) : Nat :=
  bs.getD 0 0 + 256 * bs.getD 1 0 + 65536 * bs.getD 2 0 + 16777216 * bs.getD 3 0

/-- `seekg(pos)` + `read(n)`: the requested bytes, or `none` when the stream
runs short (`!infile`). -/
def bytesAt (file : List Nat) (pos n : Nat) : Option (List Nat) :=
  if pos + n ≤ file.length then some ((file.drop pos).take n) else none

/-- One log record: `u32 key_len | key | u32 value_len | value`
(`flush_write_buffer`, lines 120–131). -/
def encRecord (k v : List Nat) : List Nat :=
  enc32 k.length ++ k ++ enc32 v.length ++ v

structure PartAState where
  data_ : List (List Nat × List Nat)
  access_order : List (List Nat)
  disk_index : List (List Nat × (Nat × Nat))
  write_buffer : List (List Nat × List Nat)
  dataFile : List Nat
deriving DecidableEq

/-- The staged disk read of `StorageEngine::get` (lines 186–232): read the
key length (fail on a short read or `key_len > MAX_KEY_SIZE`), read and
compare the key (fail on a short read or mismatch), read the value length
(fail on a short read or `value_len > MAX_VALUE_SIZE`), read the value (fail
on a short read).  `none` is exactly the code's early `return ""`. -/
def readRecordA (file : List Nat) (off : Nat) (key : List Nat) : Option (List Nat) :=
  match bytesAt file off 4 with
  | none => none
  | some klb =>
      let kl := dec32 klb
      if kl > 256 then none
      else
        match bytesAt file (off + 4) kl with
        | none => none
        | some storedKey =>
            if storedKey ≠ key then none
            else
              match bytesAt file (off + 4 + kl) 4 with
              | none => none
              | some vlb =>
                  let vl := dec32 vlb
                  if vl > 1024 then none
                  else bytesAt file (off + 4 + kl + 4) vl

/-- `StorageEngine::get` (part-a, lines 171–235).  Returns the value (`[]`
doubling as "miss", exactly as the `std::string` return does) and the state
after the call. -/
def partA_get (st : PartAState) (k : List Nat) : List Nat × PartAState :=
  match assocFind st.data_ k with
  | some v =>
      (v, { st with access_order := (st.access_order.filter (· ≠ k)) ++ [k] })
  | none =>
      match assocFind st.disk_index k with
      | none => ([], st)
      | some (off, _) =>
          match readRecordA st.dataFile off k with
          | none => ([], st)
          | some v =>
              (v, { st with data_ := assocUpsert st.data_ k v,
                            access_order := st.access_order ++ [k] })

/-- `StorageEngine::flush_write_buffer` (part-a, lines 111–141): append each
buffered record to `data.dat` and point the index entry at it.  The recorded
offset is the log length at the time of the append (`tellp`), taking the log
as freshly created by this process. -/
def partA_flush (st : PartAState) : PartAState :=
  if st.write_buffer.isEmpty then st
  else
    let st' := st.write_buffer.foldl
      (fun s e =>
        let record := encRecord e.1 e.2
        { s with dataFile := s.dataFile ++ record,
                 disk_index := assocUpsert s.disk_index e.1 (s.dataFile.length, record.length) })
      st
    { st' with write_buffer := [] }

/-- Decode an entire log: the sequence of `(key, value)` records it holds.
`fuel` bounds the number of records; `none` marks a truncated log. -/
def decodeLog (fuel : Nat) (bytes : List Nat) : Option (List (List Nat × List Nat)) :=
  if bytes = [] then some []
  else
    match fuel with
    | 0 => none
    | fuel + 1 =>
        if bytes.length < 4 then none
        else
          let kl := dec32 (bytes.take 4)
          let r1 := bytes.drop 4
          if r1.length < kl then none
          else
            let key := r1.take kl
            let r2 := r1.drop kl
            if r2.length < 4 then none
            else
              let vl := dec32 (r2.take 4)
              let r3 := r2.drop 4
              if r3.length < vl then none
              else
                match decodeLog fuel (r3.drop vl) with
                | some rest => some ((key, r3.take vl) :: rest)
                | none => none

/-! ## Operation traces over the part-b engine

A concurrent execution of the engine is an interleaving of client calls and
single worker iterations; `Op.work` stands for one worker iteration. -/

inductive Op where
  | set (k v : List Char)
  | del (k : List Char)
  | get (k : List Char)
  | work
  | sync
deriving DecidableEq

def runOp (e : Engine) : Op → Engine
  | .set k v => (e.put k v).2
  | .del k => (e.del k).2
  | .get k => (e.get k).2
  | .work => e.workerStep
  | .sync => e.sync

def runOps (e : Engine) (ops : List Op) : Engine := ops.foldl runOp e

/-- The last value enqueued for `k` still sitting in the write-behind queue. -/
def qval (k : List Char) (q : List (List Char × List Char)) : Option (List Char) :=
  q.foldl (fun acc p => if p.1 = k then some p.2 else acc) none

/-- What the disk map will hold at `k` once the queue fully drains. -/
def resolve (k : List Char) (e : Engine) : Option (List Char) :=
  match qval k e.queue with
  | some v => some v
  | none => assocFind e.disk k

/-- Keys must avoid `'='` and `'\n'`, values `'\n'`, for a `key=value` line
to survive `save_data` / `load_data`. -/
def goodKey (k : List Char) : Prop := '=' ∉ k ∧ '\n' ∉ k

def goodVal (v : List Char) : Prop := '\n' ∉ v

def goodOp : Op → Prop
  | .set k v => goodKey k ∧ goodVal v
  | _ => True

/-- `op` is a client write to key `k` (a later one supersedes an earlier
`SET k`). -/
def touchesKey (k : List Char) : Op → Prop
  | .set j _ => j = k
  | .del j => j = k
  | _ => False

/-- All keys bound in an association list are pairwise distinct. -/
def keysNodup {β : Type} (m : List (List Char × β)) : Prop :=
  (m.map Prod.fst).Nodup

/-- Every binding of the part-b disk map survives one `save_data` /
`load_data` round trip. -/
def goodDisk (m : DiskMap) : Prop :=
  keysNodup m ∧ ∀ p ∈ m, goodKey p.1 ∧ goodVal p.2

def goodQueue (q : List (List Char × List Char)) : Prop :=
  ∀ p ∈ q, goodKey p.1 ∧ goodVal p.2

/-! # Theorems -/

/-! ## Association-list lemmas -/

theorem assocFind_upsert_self {α β : Type} [DecidableEq α]
    (l : List (α × β)) (k : α) (v : β) :
    assocFind (assocUpsert l k v) k = some v := by
  induction l with
  | nil => simp [assocUpsert, assocFind]
  | cons hd tl ih =>
      obtain ⟨a, b⟩ := hd
      by_cases h : a = k <;> simp [assocUpsert, assocFind, h, ih]

theorem assocFind_upsert_other {α β : Type} [DecidableEq α]
    (l : List (α × β)) (k j : α) (v : β) (hjk : j ≠ k) :
    assocFind (assocUpsert l j v) k = assocFind l k := by
  induction l with
  | nil => simp [assocUpsert, assocFind, hjk]
  | cons hd tl ih =>
      obtain ⟨a, b⟩ := hd
      by_cases h : a = j
      · subst h
        simp [assocUpsert, assocFind, hjk]
      · simp [assocUpsert, assocFind, h, ih]

theorem assocFind_erase_other {α β : Type} [DecidableEq α]
    (l : List (α × β)) (k j : α) (hjk : j ≠ k) :
    assocFind (assocErase l j) k = assocFind l k := by
  induction l with
  | nil => simp [assocErase, assocFind]
  | cons hd tl ih =>
      obtain ⟨a, b⟩ := hd
      by_cases h : a = j
      · subst h
        simp [assocErase, assocFind, hjk, Ne.symm hjk]
      · simp [assocErase, assocFind, h, ih]

/-! ## LRUCache lemmas -/

theorem writePrev_cache (s : LRUCache) (p v : Option Nat) :
    (writePrev s p v).cache = s.cache := by
  cases p <;> rfl

theorem writeNext_cache (s : LRUCache) (p v : Option Nat) :
    (writeNext s p v).cache = s.cache := by
  cases p <;> rfl

theorem writePrev_head (s : LRUCache) (p v : Option Nat) :
    (writePrev s p v).head = s.head := by
  cases p <;> rfl

theorem writeNext_head (s : LRUCache) (p v : Option Nat) :
    (writeNext s p v).head = s.head := by
  cases p <;> rfl

theorem lruNodeAt_upsert_value (s : LRUCache) (i j : Nat) (nd : LRUNode)
    (hv : nd.value = (lruNodeAt s i).value) :
    (lruNodeAt { s with heap := assocUpsert s.heap i nd } j).value =
      (lruNodeAt s j).value := by
  by_cases h : i = j
  · subst h
    simp [lruNodeAt, assocFind_upsert_self, hv]
  · simp [lruNodeAt, assocFind_upsert_other _ _ _ _ h]

theorem writePrev_value (s : LRUCache) (p v : Option Nat) (j : Nat) :
    (lruNodeAt (writePrev s p v) j).value = (lruNodeAt s j).value := by
  cases p with
  | none => rfl
  | some i => exact lruNodeAt_upsert_value s i j _ rfl

theorem writeNext_value (s : LRUCache) (p v : Option Nat) (j : Nat) :
    (lruNodeAt (writeNext s p v) j).value = (lruNodeAt s j).value := by
  cases p with
  | none => rfl
  | some i => exact lruNodeAt_upsert_value s i j _ rfl

theorem move_to_front_cache (s : LRUCache) (i : Nat) :
    (s.move_to_front i).cache = s.cache := by
  unfold LRUCache.move_to_front
  by_cases h : s.head = some i
  · simp [h]
  · simp only [h, if_neg (by exact fun hh => h hh)]
    by_cases ht : s.tail = some i <;>
      simp [ht, writePrev_cache, writeNext_cache]

theorem move_to_front_head (s : LRUCache) (i : Nat) :
    (s.move_to_front i).head = some i := by
  unfold LRUCache.move_to_front
  by_cases h : s.head = some i
  · simp [h]
  · simp [h]

theorem writePrev_heap_value (s : LRUCache) (p v : Option Nat) (j : Nat) :
    ((assocFind (writePrev s p v).heap j).getD ⟨[], [], none, none⟩).value =
      ((assocFind s.heap j).getD ⟨[], [], none, none⟩).value := by
  cases p with
  | none => rfl
  | some i =>
      by_cases h : i = j
      · subst h
        simp [writePrev, assocFind_upsert_self, lruNodeAt]
      · simp [writePrev, assocFind_upsert_other _ _ _ _ h]

theorem writeNext_heap_value (s : LRUCache) (p v : Option Nat) (j : Nat) :
    ((assocFind (writeNext s p v).heap j).getD ⟨[], [], none, none⟩).value =
      ((assocFind s.heap j).getD ⟨[], [], none, none⟩).value := by
  cases p with
  | none => rfl
  | some i =>
      by_cases h : i = j
      · subst h
        simp [writeNext, assocFind_upsert_self, lruNodeAt]
      · simp [writeNext, assocFind_upsert_other _ _ _ _ h]

theorem move_to_front_value (s : LRUCache) (i j : Nat) :
    (lruNodeAt (s.move_to_front i) j).value = (lruNodeAt s j).value := by
  unfold LRUCache.move_to_front
  by_cases h : s.head = some i
  · simp [h]
  · by_cases ht : s.tail = some i <;>
      simp [h, ht, lruNodeAt, writePrev_heap_value, writeNext_heap_value]

/-- A hit unfolded: `get` returns the (unchanged) value of the node the map
points at, in the state after the promotion. -/
theorem lru_get_of_find_some (s : LRUCache) (k : List Char) (i : Nat)
    (h : assocFind s.cache k = some i) :
    s.get k = (some (lruNodeAt s i).value, s.move_to_front i) := by
  unfold LRUCache.get
  rw [h]
  simp [move_to_front_value]

theorem lru_put_true (s : LRUCache) (k v : List Char) :
    (s.put k v).1 = true := by
  unfold LRUCache.put
  cases hfind : assocFind s.cache k with
  | some i => rfl
  | none =>
      simp only
      cases hh : (if s.cache.length ≥ s.capacity then s.evict_lru else s).head <;>
        simp [hh]

/-- After any `put k v`, the map resolves `k` to a node whose value is `v` —
from any cache state whatsoever. -/
theorem lru_put_find (s : LRUCache) (k v : List Char) :
    ∃ i, assocFind ((s.put k v).2).cache k = some i ∧
      (lruNodeAt ((s.put k v).2) i).value = v := by
  unfold LRUCache.put
  cases hfind : assocFind s.cache k with
  | some i =>
      refine ⟨i, ?_, ?_⟩
      · simp only
        rw [move_to_front_cache]
        show assocFind (writeValue s i v).cache k = some i
        exact hfind
      · simp only
        rw [move_to_front_value]
        simp [writeValue, lruNodeAt, assocFind_upsert_self]
  | none =>
      simp only
      cases hh : (if s.cache.length ≥ s.capacity then s.evict_lru else s).head with
      | none =>
          refine ⟨(if s.cache.length ≥ s.capacity then s.evict_lru else s).nextId, ?_, ?_⟩ <;>
            simp [hh, assocFind, lruNodeAt]
      | some h0 =>
          refine ⟨(if s.cache.length ≥ s.capacity then s.evict_lru else s).nextId, ?_, ?_⟩ <;>
            simp [hh, assocFind, writePrev_cache, writeNext_cache,
              writePrev_heap_value, writeNext_heap_value, lruNodeAt]

/-- `put k v` succeeds and an immediately following `get k` returns `v`. -/
theorem lru_put_get (s : LRUCache) (k v : List Char) :
    (s.put k v).1 = true ∧ ((s.put k v).2.get k).1 = some v := by
  refine ⟨lru_put_true s k v, ?_⟩
  obtain ⟨i, hfind, hval⟩ := lru_put_find s k v
  rw [lru_get_of_find_some _ _ _ hfind]
  simp [hval]

/-- CLAIM C7: `LRUCache::get` on a hit returns the stored value, moves the
key's node to the head of the recency list (the most-recent position; the
node at the tail is the eviction candidate), and leaves the key→node map
unchanged; on a miss it returns nothing and leaves the whole cache state
unchanged. -/
theorem lru_get_contract (s : LRUCache) (k : List Char) :
    (∀ i, assocFind s.cache k = some i →
        (s.get k).1 = some (lruNodeAt s i).value ∧
        (s.get k).2.head = some i ∧
        (s.get k).2.cache = s.cache) ∧
    (assocFind s.cache k = none → s.get k = (none, s)) := by
  constructor
  · intro i hfind
    rw [lru_get_of_find_some _ _ _ hfind]
    exact ⟨rfl, move_to_front_head s i, move_to_front_cache s i⟩
  · intro hfind
    unfold LRUCache.get
    rw [hfind]

/-- Witness for C7 at a concrete two-entry cache: a hit on `"a"` (stored at
the tail) returns its value and promotes its node (id 0) to the head; a miss
on `"z"` changes nothing. -/
theorem lru_get_contract_witness :
    ((((((LRUCache.empty 2).put "a".data "1".data).2).put "b".data "2".data).2.get
        "a".data).1 = some "1".data ∧
     (((((LRUCache.empty 2).put "a".data "1".data).2).put "b".data "2".data).2.get
        "a".data).2.head = some 0 ∧
     (((((LRUCache.empty 2).put "a".data "1".data).2).put "b".data "2".data).2.get
        "a".data).2.cache =
       ((((LRUCache.empty 2).put "a".data "1".data).2).put "b".data "2".data).2.cache ∧
     ((((LRUCache.empty 2).put "a".data "1".data).2).put "b".data "2".data).2.get
        "z".data =
       (none, ((((LRUCache.empty 2).put "a".data "1".data).2).put "b".data "2".data).2)) := by
  have hhit := (lru_get_contract
    ((((LRUCache.empty 2).put "a".data "1".data).2).put "b".data "2".data).2 "a".data).1
    0 (by decide)
  have hmiss := (lru_get_contract
    ((((LRUCache.empty 2).put "a".data "1".data).2).put "b".data "2".data).2 "z".data).2
    (by decide)
  refine ⟨?_, hhit.2.1, hhit.2.2, hmiss⟩
  rw [hhit.1]
  decide

/-! ## Concrete failing executions -/

/-- CLAIM C6 (failing evaluation): with capacity 1 — the `StorageEngine`
default — three fresh inserts leave the cache holding TWO entries.
`evict_lru` removes the sole node without resetting `head_`, so the next
insert links after the dangling head and `tail_` stays null; from then on
`evict_lru` is a no-op and the size bound `size ≤ capacity` is violated. -/
theorem lru_capacity_violation :
    ((((LRUCache.empty 1).put "a".data "1".data).2.put "b".data "2".data).2.put
        "c".data "3".data).2.size = 2 ∧
    ((((LRUCache.empty 1).put "a".data "1".data).2.put "b".data "2".data).2.put
        "c".data "3".data).2.capacity = 1 ∧
    ((((LRUCache.empty 1).put "a".data "1".data).2.put "b".data "2".data).2.put
        "c".data "3".data).2.tail = none := by decide

/-- CLAIM C2 (failing evaluation): `put k v` enqueues `(k, v)`; `del k`
returns `true` but leaves the queue untouched; one worker iteration then
writes the deleted key to disk, and the next `get k` returns `v` instead of
nil — the background worker resurrects the key after `DEL`. -/
theorem del_queue_resurrection :
    ((((Engine.empty 1).put "k".data "v".data).2).del "k".data).1 = true ∧
    (((((Engine.empty 1).put "k".data "v".data).2).del "k".data).2.workerStep.getStr
        "k".data).1 = "v".data ∧
    respGet ((((((Engine.empty 1).put "k".data "v".data).2).del "k".data).2.workerStep.getStr
        "k".data).1) = "$1\r\nv\r\n".data := by decide

/-- CLAIM C5 (failing evaluation): the frame
`*2\r\n$3\r\nGET\r\n$3\r\nfoo\r\n` sent in one read yields the single reply
`$-1\r\n`; sent as `*2\r\n` followed by the rest, the parser consumes the
array header of the incomplete frame (the buffer is left empty, not
untouched), and the second read is then misparsed as four junk commands. -/
theorem incremental_framing_divergence :
    (feedChunks (Engine.empty 1) [] ["*2\r\n$3\r\nGET\r\n$3\r\nfoo\r\n".data]).1 =
      ["$-1\r\n".data] ∧
    (feedChunks (Engine.empty 1) [] ["*2\r\n".data]).2.2 = [] ∧
    (feedChunks (Engine.empty 1) []
        ["*2\r\n".data, "$3\r\nGET\r\n$3\r\nfoo\r\n".data]).1 =
      ["-ERR unknown command '$3'\r\n".data,
       "-ERR wrong number of arguments for 'get' command\r\n".data,
       "-ERR unknown command '$3'\r\n".data,
       "-ERR unknown command 'foo'\r\n".data] := by decide

/-- CLAIM C1 counterexample: `k = "k"`, `v = "a b"` are within the size
bounds, yet SET-then-GET over the wire replies `+OK` followed by
`$1\r\na\r\n` — not the claimed `$3\r\na b\r\n` — because
`handle_client_data` joins the frame's arguments with spaces and
`process_command` re-splits the joined string on whitespace. -/
theorem set_get_space_value_counterexample :
    (feedChunks (Engine.empty 1) []
        [encFrame ["SET".data, "k".data, "a b".data] ++
          encFrame ["GET".data, "k".data]]).1 =
      ["+OK\r\n".data, "$1\r\na\r\n".data] ∧
    "$1\r\na\r\n".data ≠ "$3\r\na b\r\n".data := by decide

/-- CLAIM C3 counterexample: the sequence `SET "a=b" "c"; sync()` ends with a
sync and the SET is never superseded, yet after a restart GET of `"a=b"`
returns nil, not `bulk("c")`: `save_data` wrote the line `a=b=c` and
`load_data` re-split it at the FIRST `'='`, loading the binding
`("a", "b=c")` instead. -/
theorem sync_restart_eq_key_counterexample :
    (((runOps (Engine.empty 1) [Op.set "a=b".data "c".data, Op.sync]).restart 1).getStr
        "a=b".data).1 = [] ∧
    respGet [] = "$-1\r\n".data ∧
    ("$-1\r\n".data : List Char) ≠ respGet "c".data := by decide

/-- CLAIM C9 counterexample: in the part-b engine the disk write path for the
pair `("a", "b")` produces the text line `a=b\n` — not the little-endian
record `u32 1 | 'a' | u32 1 | 'b'` — and a second put of the same key
REWRITES the file (the old contents are not a prefix of the new), so the
write is not an append to `data.dat`. -/
theorem partb_disk_write_counterexample :
    renderDisk (diskPut [] "a".data "b".data) = "a=b\n".data ∧
    (renderDisk (diskPut [] "a".data "b".data)).map Char.toNat ≠
      encRecord [97] [98] ∧
    (renderDisk (diskPut (diskPut [] "a".data "b".data) "a".data "c".data)).take
        (renderDisk (diskPut [] "a".data "b".data)).length ≠
      renderDisk (diskPut [] "a".data "b".data) := by decide

/-! ## Character and decimal-string lemmas -/

theorem isDigit_ne (c : Char) (h : c.isDigit = true) (d : Char)
    (hd : d.isDigit = false) : c ≠ d := by
  intro he
  rw [he, hd] at h
  cases h

theorem isSpaceCh_of_digit (c : Char) (h : c.isDigit = true) :
    isSpaceCh c = false := by
  unfold isSpaceCh
  simp only [Bool.or_eq_false_iff, beq_eq_false_iff_ne, ne_eq]
  exact ⟨⟨⟨⟨⟨isDigit_ne c h ' ' (by decide), isDigit_ne c h '\t' (by decide)⟩,
    isDigit_ne c h '\n' (by decide)⟩, isDigit_ne c h '\x0b' (by decide)⟩,
    isDigit_ne c h '\x0c' (by decide)⟩, isDigit_ne c h '\r' (by decide)⟩

theorem dchar_digit (d : Nat) : (dchar d).isDigit = true := by
  unfold dchar
  split <;> decide

theorem dchar_toNat (d : Nat) (h : d < 10) : (dchar d).toNat - 48 = d := by
  interval_cases d <;> decide

theorem splitCRLF_append (l r : List Char) (h : '\r' ∉ l) :
    splitCRLF (l ++ '\r' :: '\n' :: r) = some (l, r) := by
  induction l with
  | nil => rfl
  | cons c cs ih =>
      have hc : c ≠ '\r' := fun hh => h (hh ▸ List.mem_cons_self c cs)
      have ih' := ih (fun hm => h (List.mem_cons_of_mem c hm))
      simp only [List.cons_append]
      simp [splitCRLF, hc, ih']

theorem natStrAux_mono (f : Nat) : ∀ g n acc, n < f → n < g →
    natStrAux f n acc = natStrAux g n acc := by
  induction f with
  | zero => intro g n acc hf _; omega
  | succ f ih =>
      intro g n acc hf hg
      cases g with
      | zero => omega
      | succ g =>
          by_cases h10 : n < 10
          · simp [natStrAux, h10]
          · have hdiv : n / 10 < n := Nat.div_lt_self (by omega) (by norm_num)
            simp only [natStrAux, h10, if_false]
            exact ih g (n / 10) _ (by omega) (by omega)

theorem natStrAux_acc (f : Nat) : ∀ n acc, n < f →
    natStrAux f n acc = natStrAux f n [] ++ acc := by
  induction f with
  | zero => intro n acc hf; omega
  | succ f ih =>
      intro n acc hf
      by_cases h10 : n < 10
      · simp [natStrAux, h10]
      · have hdiv : n / 10 < n := Nat.div_lt_self (by omega) (by norm_num)
        simp only [natStrAux, h10, if_false]
        rw [ih (n / 10) _ (by omega), ih (n / 10) [dchar (n % 10)] (by omega),
          List.append_assoc]
        rfl

theorem natStr_low (n : Nat) (h : n < 10) : natStr n = [dchar n] := by
  simp [natStr, natStrAux, h]

theorem natStr_high (n : Nat) (h : 10 ≤ n) :
    natStr n = natStr (n / 10) ++ [dchar (n % 10)] := by
  have hdiv : n / 10 < n := Nat.div_lt_self (by omega) (by norm_num)
  unfold natStr
  conv_lhs => rw [show natStrAux (n + 1) n [] = natStrAux n (n / 10) [dchar (n % 10)] by
    simp [natStrAux, Nat.not_lt.mpr h]]
  rw [natStrAux_acc n (n / 10) _ (by omega),
    natStrAux_mono n (n / 10 + 1) (n / 10) [] (by omega) (by omega)]

theorem natStr_digits (n : Nat) : ∀ c ∈ natStr n, c.isDigit = true := by
  induction n using Nat.strong_induction_on with
  | _ n ih =>
      by_cases h : n < 10
      · rw [natStr_low n h]
        intro c hc
        rw [List.mem_singleton] at hc
        rw [hc]; exact dchar_digit n
      · rw [natStr_high n (by omega)]
        intro c hc
        rcases List.mem_append.1 hc with hl | hr
        · exact ih (n / 10) (Nat.div_lt_self (by omega) (by norm_num)) c hl
        · rw [List.mem_singleton] at hr
          rw [hr]; exact dchar_digit (n % 10)

theorem natStr_ne_nil (n : Nat) : natStr n ≠ [] := by
  by_cases h : n < 10
  · rw [natStr_low n h]; simp
  · rw [natStr_high n (by omega)]; simp

theorem no_cr_natStr (n : Nat) : '\r' ∉ natStr n := by
  intro hm
  have := natStr_digits n '\r' hm
  exact absurd this (by decide)

theorem no_lf_natStr (n : Nat) : '\n' ∉ natStr n := by
  intro hm
  have := natStr_digits n '\n' hm
  exact absurd this (by decide)

theorem digitsVal_append_digit (xs : List Char) (d : Char) (hd : d.isDigit = true) :
    ∀ a, (∀ c ∈ xs, c.isDigit = true) →
      digitsVal (xs ++ [d]) a = 10 * digitsVal xs a + (d.toNat - 48) := by
  induction xs with
  | nil =>
      intro a _
      simp [digitsVal, hd]
      omega
  | cons c cs ih =>
      intro a hxs
      have hc : c.isDigit = true := hxs c (List.mem_cons_self c cs)
      simp only [List.cons_append, digitsVal, hc, if_true]
      exact ih _ (fun x hx => hxs x (List.mem_cons_of_mem c hx))

theorem digitsVal_natStr (n : Nat) : digitsVal (natStr n) 0 = n := by
  induction n using Nat.strong_induction_on with
  | _ n ih =>
      by_cases h : n < 10
      · rw [natStr_low n h]
        simp [digitsVal, dchar_digit n, dchar_toNat n h]
      · rw [natStr_high n (by omega)]
        rw [digitsVal_append_digit _ _ (dchar_digit (n % 10)) 0
          (natStr_digits (n / 10))]
        rw [ih (n / 10) (Nat.div_lt_self (by omega) (by norm_num))]
        rw [dchar_toNat (n % 10) (Nat.mod_lt n (by norm_num))]
        omega

theorem stoi_natStr (n : Nat) : stoi (natStr n) = some (n : Int) := by
  cases hn : natStr n with
  | nil => exact absurd hn (natStr_ne_nil n)
  | cons c cs =>
      have hc : c.isDigit = true :=
        natStr_digits n c (by rw [hn]; exact List.mem_cons_self c cs)
      have h1 : c ≠ '-' := isDigit_ne c hc '-' (by decide)
      have h2 : c ≠ '+' := isDigit_ne c hc '+' (by decide)
      have hsp : isSpaceCh c = false := isSpaceCh_of_digit c hc
      have hdv : digitsVal (c :: cs) 0 = n := by
        rw [← hn]; exact digitsVal_natStr n
      unfold stoi
      rw [List.dropWhile_cons, hsp]
      simp [h1, h2, headIsDigit, hc, hdv]

theorem stoi_neg_natStr (m : Nat) : stoi ('-' :: natStr m) = some (-(m : Int)) := by
  cases hn : natStr m with
  | nil => exact absurd hn (natStr_ne_nil m)
  | cons c cs =>
      have hc : c.isDigit = true :=
        natStr_digits m c (by rw [hn]; exact List.mem_cons_self c cs)
      have hdv : digitsVal (c :: cs) 0 = m := by
        rw [← hn]; exact digitsVal_natStr m
      unfold stoi
      rw [show List.dropWhile isSpaceCh ('-' :: c :: cs) = '-' :: c :: cs by
        rw [List.dropWhile_cons, show isSpaceCh '-' = false from by decide]
        simp]
      simp [headIsDigit, hc, hdv]

/-! ## Tokenizer lemmas -/

theorem tokens_space_cons (c : Char) (r : List Char) (hc : isSpaceCh c = true) :
    tokens (c :: r) = tokens r := by
  rw [tokens.eq_def]
  simp [hc]

theorem tokens_single (c : Char) (hc : isSpaceCh c = false) :
    tokens [c] = [[c]] := by
  rw [tokens.eq_def]
  simp [hc]

theorem tokens_cons_spaced (c d : Char) (r : List Char)
    (hc : isSpaceCh c = false) (hd : isSpaceCh d = true) :
    tokens (c :: d :: r) = [c] :: tokens (d :: r) := by
  rw [tokens.eq_def]
  simp [hc, hd]

theorem tokens_cons_cons (c d : Char) (r : List Char)
    (hc : isSpaceCh c = false) (hd : isSpaceCh d = false) :
    tokens (c :: d :: r) =
      (match tokens (d :: r) with
        | t :: ts' => (c :: t) :: ts'
        | [] => [[c]]) := by
  rw [tokens.eq_def]
  simp [hc, hd]

theorem tokens_word_cons (w : List Char) :
    w ≠ [] → (∀ c ∈ w, isSpaceCh c = false) →
    ∀ rest, tokens (w ++ ' ' :: rest) = w :: tokens rest := by
  induction w with
  | nil => intro h; exact absurd rfl h
  | cons c w' ih =>
      intro _ hnw rest
      have hc : isSpaceCh c = false := hnw c (List.mem_cons_self c w')
      cases w' with
      | nil =>
          simp only [List.cons_append, List.nil_append]
          rw [tokens_cons_spaced c ' ' rest hc (by decide),
            tokens_space_cons ' ' rest (by decide)]
      | cons c2 w'' =>
          have hc2 : isSpaceCh c2 = false := hnw c2 (by simp)
          have ih' := ih (by simp) (fun x hx => hnw x (List.mem_cons_of_mem c hx)) rest
          simp only [List.cons_append] at ih' ⊢
          rw [tokens_cons_cons c c2 (w'' ++ ' ' :: rest) hc hc2, ih']

theorem tokens_word_only (w : List Char) :
    w ≠ [] → (∀ c ∈ w, isSpaceCh c = false) → tokens w = [w] := by
  induction w with
  | nil => intro h; exact absurd rfl h
  | cons c w' ih =>
      intro _ hnw
      have hc : isSpaceCh c = false := hnw c (List.mem_cons_self c w')
      cases w' with
      | nil => exact tokens_single c hc
      | cons c2 w'' =>
          have hc2 : isSpaceCh c2 = false := hnw c2 (by simp)
          have ih' := ih (by simp) (fun x hx => hnw x (List.mem_cons_of_mem c hx))
          rw [tokens_cons_cons c c2 w'' hc hc2, ih']

/-! ## Engine-level lemmas -/

theorem engine_put_eq (e : Engine) (k v : List Char) :
    e.put k v =
      (true, { e with lru := (e.lru.put k v).2, queue := e.queue ++ [(k, v)] }) := by
  have h := lru_put_true e.lru k v
  cases hp : e.lru.put k v with
  | mk ok lru' =>
      rw [hp] at h
      simp only at h
      unfold Engine.put
      rw [hp, h]
      simp

theorem engine_put_get (e : Engine) (k v : List Char) :
    (e.put k v).2.getStr k = (v, ((e.put k v).2.get k).2) ∧
      ((e.put k v).2.get k).1 = some v := by
  rw [engine_put_eq]
  have h := (lru_put_get e.lru k v).2
  cases hg : (e.lru.put k v).2.get k with
  | mk o l =>
      rw [hg] at h
      simp only at h
      unfold Engine.getStr Engine.get
      rw [hg, h]
      simp

theorem joinSpace_three (a k v : List Char) :
    joinSpace [a, k, v] = a ++ ' ' :: (k ++ ' ' :: v) := by
  simp [joinSpace]

theorem joinSpace_two (a k : List Char) :
    joinSpace [a, k] = a ++ ' ' :: k := by
  simp [joinSpace]

theorem process_command_set (e : Engine) (k v : List Char) (hk : k ≠ []) (hv : v ≠ [])
    (hkw : ∀ c ∈ k, isSpaceCh c = false) (hvw : ∀ c ∈ v, isSpaceCh c = false) :
    process_command e ("SET".data ++ ' ' :: (k ++ ' ' :: v)) =
      ("+OK\r\n".data, (e.put k v).2) := by
  have htok : tokens ("SET".data ++ ' ' :: (k ++ ' ' :: v)) = ["SET".data, k, v] := by
    rw [tokens_word_cons "SET".data (by decide) (by decide) _,
      tokens_word_cons k hk hkw v, tokens_word_only v hv hvw]
  unfold process_command
  rw [htok]
  rw [engine_put_eq]
  simp [hk, hv, show "SET".data.map toUpperCh = "SET".data from by decide]
  rw [engine_put_eq]
  simp

theorem process_command_get (e : Engine) (k : List Char) (hk : k ≠ [])
    (hkw : ∀ c ∈ k, isSpaceCh c = false) :
    process_command e ("GET".data ++ ' ' :: k) =
      (respGet (e.getStr k).1, (e.getStr k).2) := by
  have htok : tokens ("GET".data ++ ' ' :: k) = ["GET".data, k] := by
    rw [tokens_word_cons "GET".data (by decide) (by decide) _, tokens_word_only k hk hkw]
  unfold process_command
  rw [htok]
  cases hg : e.getStr k with
  | mk v e' =>
      simp [hk, show "GET".data.map toUpperCh = "GET".data from by decide, hg]

/-! ## Frame-parsing lemmas -/

theorem no_cr_bulk_header (s : List Char) : '\r' ∉ '$' :: natStr s.length := by
  intro hm
  rcases List.mem_cons.1 hm with h | h
  · exact absurd h.symm (by decide)
  · exact no_cr_natStr s.length h

/-- One well-formed bulk element is consumed whole: the header line and then
exactly `len + 2` bytes. -/
theorem parseArgs_bulk (n : Nat) (w rest : List Char) (args : List (List Char)) :
    parseArgs (n + 1) (encBulk w ++ rest) args = parseArgs n rest (args ++ [w]) := by
  have hdrop : List.drop (w.length + 2) (w ++ '\r' :: '\n' :: rest) = rest := by
    rw [List.drop_append 2]
    rfl
  have htake := List.take_left w ('\r' :: '\n' :: rest)
  have hnot : ¬ (w ++ '\r' :: '\n' :: rest).length < w.length + 2 := by
    simp
  rw [show encBulk w ++ rest =
      ('$' :: natStr w.length) ++ '\r' :: '\n' :: (w ++ '\r' :: '\n' :: rest) from by
    simp [encBulk, crlf]]
  conv_lhs => rw [parseArgs]
  rw [splitCRLF_append _ _ (no_cr_bulk_header w)]
  simp only [stoi_natStr, Int.toNat_natCast,
    show ¬ (('$' : Char) ≠ '$') from by simp, if_false,
    show ¬ ((w.length : Int) < 0) from by simp]
  rw [if_neg hnot, htake, hdrop]

/-- The whole argument loop of a frame with `N = args.length` elements
consumes exactly the encoded elements and delivers the arguments. -/
theorem parseArgs_bulks (args : List (List Char)) : ∀ (acc : List (List Char)) (rest : List Char),
    parseArgs args.length ((args.map encBulk).flatten ++ rest) acc =
      .done (acc ++ args) rest := by
  induction args with
  | nil =>
      intro acc rest
      simp [parseArgs]
  | cons w ws ih =>
      intro acc rest
      simp only [List.map_cons, List.flatten_cons, List.length_cons, List.append_assoc]
      rw [parseArgs_bulk, ih]
      simp

theorem processBuf_nil (f : Nat) (e : Engine) (acc : List (List Char)) :
    processBuf f e [] acc = (acc, e, [], false) := by
  cases f <;> rfl

theorem no_cr_frame_header (args : List (List Char)) :
    '\r' ∉ '*' :: natStr args.length := by
  intro hm
  rcases List.mem_cons.1 hm with h | h
  · exact absurd h.symm (by decide)
  · exact no_cr_natStr args.length h

/-- One complete frame at the head of the buffer is parsed, dispatched, and
its reply appended; the loop then continues on the remaining buffer. -/
theorem processBuf_frame (f : Nat) (e : Engine) (args : List (List Char))
    (hargs : args ≠ []) (rest : List Char) (acc : List (List Char)) :
    processBuf (f + 1) e (encFrame args ++ rest) acc =
      processBuf f (process_command e (joinSpace args)).2 rest
        (acc ++ [(process_command e (joinSpace args)).1]) := by
  rw [show encFrame args ++ rest =
      ('*' :: natStr args.length) ++ '\r' :: '\n' :: ((args.map encBulk).flatten ++ rest)
      from by simp [encFrame, crlf]]
  conv_lhs => rw [processBuf]
  rw [splitCRLF_append _ _ (no_cr_frame_header args)]
  simp only [stoi_natStr, Int.toNat_natCast]
  rw [parseArgs_bulks args [] rest]
  simp only [List.nil_append]
  rw [show args.isEmpty = false from by
    cases args with
    | nil => exact absurd rfl hargs
    | cons a as => rfl]
  cases hpc : process_command e (joinSpace args) with
  | mk resp e' => simp

/-- CLAIM C1 (amended): for every key and value within the size bounds that
are furthermore non-empty and free of ASCII whitespace, issuing SET k v over
the wire and then GET k on the same connection yields exactly the replies
`+OK\r\n` and `$<len v>\r\n<v>\r\n`, from any engine state; the buffer is
fully consumed and the handler does not die.  (`f + 2` loop iterations
suffice for the two frames; the result is the loop's fixpoint.)
Whitespace must be excluded because the server joins the frame's arguments
with `' '` and re-splits on whitespace, and an empty value is rejected with a
wrong-arity error — see the counterexample. -/
theorem set_get_roundtrip (f : Nat) (e : Engine) (k v : List Char)
    (hk : k ≠ []) (hv : v ≠ [])
    (hkw : ∀ c ∈ k, isSpaceCh c = false) (hvw : ∀ c ∈ v, isSpaceCh c = false)
    (hkb : k.length ≤ 256) (hvb : v.length ≤ 1024) :
    (processBuf (f + 2) e (encFrame ["SET".data, k, v] ++ encFrame ["GET".data, k]) []).1 =
      ["+OK\r\n".data, '$' :: natStr v.length ++ crlf ++ v ++ crlf] ∧
    (processBuf (f + 2) e
        (encFrame ["SET".data, k, v] ++ encFrame ["GET".data, k]) []).2.2.1 = [] ∧
    (processBuf (f + 2) e
        (encFrame ["SET".data, k, v] ++ encFrame ["GET".data, k]) []).2.2.2 = false := by
  have hpg := (engine_put_get e k v).1
  have H : processBuf (f + 2) e
      (encFrame ["SET".data, k, v] ++ encFrame ["GET".data, k]) [] =
      (["+OK\r\n".data, respGet v], ((e.put k v).2.get k).2, [], false) := by
    rw [show f + 2 = (f + 1) + 1 from rfl]
    rw [processBuf_frame (f + 1) e ["SET".data, k, v] (by simp) _ []]
    rw [joinSpace_three, process_command_set e k v hk hv hkw hvw]
    rw [show encFrame ["GET".data, k] = encFrame ["GET".data, k] ++ [] from
      (List.append_nil _).symm]
    rw [processBuf_frame f _ ["GET".data, k] (by simp) [] _]
    rw [joinSpace_two, process_command_get _ k hk hkw]
    rw [processBuf_nil, hpg]
    simp
  refine ⟨?_, ?_, ?_⟩
  · rw [H]
    simp [respGet, hv]
  · rw [H]
  · rw [H]

/-- Witness for C1 (amended) at `k = "k"`, `v = "v"`, a fresh engine and the
minimal fuel. -/
theorem set_get_roundtrip_witness :
    (processBuf 2 (Engine.empty 1)
        (encFrame ["SET".data, "k".data, "v".data] ++ encFrame ["GET".data, "k".data]) []).1 =
      ["+OK\r\n".data, '$' :: natStr "v".data.length ++ crlf ++ "v".data ++ crlf] ∧
    (processBuf 2 (Engine.empty 1)
        (encFrame ["SET".data, "k".data, "v".data] ++ encFrame ["GET".data, "k".data]) []).2.2.1 = [] ∧
    (processBuf 2 (Engine.empty 1)
        (encFrame ["SET".data, "k".data, "v".data] ++ encFrame ["GET".data, "k".data]) []).2.2.2 = false :=
  set_get_roundtrip 0 (Engine.empty 1) "k".data "v".data (by decide) (by decide)
    (by decide) (by decide) (by decide) (by decide)

/-- CLAIM C10: in the array-frame argument loop, a bulk element whose
declared length is negative (`$-m`) is accepted rather than rejected as
malformed: the parser pushes an empty-string argument and consumes no bytes
beyond the header line — the loop continues exactly at `rest`. -/
theorem negative_bulk_length_accepted (n m : Nat) (hm : 0 < m)
    (rest : List Char) (args : List (List Char)) :
    parseArgs (n + 1) ('$' :: '-' :: natStr m ++ crlf ++ rest) args =
      parseArgs n rest (args ++ [[]]) := by
  have hcr : '\r' ∉ '$' :: '-' :: natStr m := by
    intro hmem
    rcases List.mem_cons.1 hmem with h | h
    · exact absurd h.symm (by decide)
    rcases List.mem_cons.1 h with h2 | h2
    · exact absurd h2.symm (by decide)
    · exact no_cr_natStr m h2
  rw [show '$' :: '-' :: natStr m ++ crlf ++ rest =
      ('$' :: '-' :: natStr m) ++ '\r' :: '\n' :: rest from by simp [crlf]]
  conv_lhs => rw [parseArgs]
  rw [splitCRLF_append _ _ hcr]
  simp only [stoi_neg_natStr]
  rw [if_neg (show ¬ (('$' : Char) ≠ '$') from by simp)]
  rw [if_pos (show (-(m : Int)) < 0 from by omega)]

/-- Witness for C10: `$-1` inside a one-element frame body yields the empty
argument and leaves `XYZ` untouched. -/
theorem negative_bulk_length_accepted_witness :
    parseArgs 1 ('$' :: '-' :: natStr 1 ++ crlf ++ "XYZ".data) [] =
      parseArgs 0 "XYZ".data [[]] :=
  negative_bulk_length_accepted 0 1 (by decide) "XYZ".data []

/-- CLAIM C4 (failing evaluation): a SET frame whose key is 257 bytes long is
NOT rejected — neither `process_command` nor `StorageEngine::put` checks any
size bound — the client gets `+OK` and the pair is stored and readable; a
1025-byte value is likewise accepted.  (The `MAX_KEY_SIZE` / `MAX_VALUE_SIZE`
constants exist only in the part-a engine and are consulted only when reading
records back from disk.) -/
theorem oversized_key_accepted :
    (processBuf 1 (Engine.empty 1)
        (encFrame ["SET".data, List.replicate 257 'a', "v".data]) []).1 =
      ["+OK\r\n".data] ∧
    (((processBuf 1 (Engine.empty 1)
        (encFrame ["SET".data, List.replicate 257 'a', "v".data]) []).2.1).getStr
        (List.replicate 257 'a')).1 = "v".data ∧
    (processBuf 1 (Engine.empty 1)
        (encFrame ["SET".data, "k".data, List.replicate 1025 'b']) []).1 =
      ["+OK\r\n".data] := by
  have hrep : ∀ c ∈ List.replicate 257 'a', isSpaceCh c = false := by
    intro c hc
    rw [List.eq_of_mem_replicate hc]
    decide
  have hrep2 : ∀ c ∈ List.replicate 1025 'b', isSpaceCh c = false := by
    intro c hc
    rw [List.eq_of_mem_replicate hc]
    decide
  have hne : List.replicate 257 'a' ≠ ([] : List Char) := by
    intro h
    have hl := congrArg List.length h
    rw [List.length_replicate] at hl
    exact absurd hl (by norm_num)
  have hne2 : List.replicate 1025 'b' ≠ ([] : List Char) := by
    intro h
    have hl := congrArg List.length h
    rw [List.length_replicate] at hl
    exact absurd hl (by norm_num)
  have H1 : processBuf 1 (Engine.empty 1)
      (encFrame ["SET".data, List.replicate 257 'a', "v".data]) [] =
      ([ "+OK\r\n".data ], ((Engine.empty 1).put (List.replicate 257 'a') "v".data).2,
        [], false) := by
    rw [show encFrame ["SET".data, List.replicate 257 'a', "v".data] =
        encFrame ["SET".data, List.replicate 257 'a', "v".data] ++ [] from
      (List.append_nil _).symm]
    rw [show (1 : Nat) = 0 + 1 from rfl]
    rw [processBuf_frame 0 _ _ (List.cons_ne_nil _ _) [] []]
    rw [joinSpace_three,
      process_command_set _ _ _ hne (by decide) hrep (by decide)]
    rw [processBuf_nil]
    rfl
  have H2 : processBuf 1 (Engine.empty 1)
      (encFrame ["SET".data, "k".data, List.replicate 1025 'b']) [] =
      ([ "+OK\r\n".data ], ((Engine.empty 1).put "k".data (List.replicate 1025 'b')).2,
        [], false) := by
    rw [show encFrame ["SET".data, "k".data, List.replicate 1025 'b'] =
        encFrame ["SET".data, "k".data, List.replicate 1025 'b'] ++ [] from
      (List.append_nil _).symm]
    rw [show (1 : Nat) = 0 + 1 from rfl]
    rw [processBuf_frame 0 _ _ (List.cons_ne_nil _ _) [] []]
    rw [joinSpace_three,
      process_command_set _ _ _ (by decide) hne2 (by decide) hrep2]
    rw [processBuf_nil]
    rfl
  refine ⟨by rw [H1], ?_, by rw [H2]⟩
  have := (engine_put_get (Engine.empty 1) (List.replicate 257 'a') "v".data).1
  rw [H1, this]

/-! ## Part-a lemmas: corrupt reads and the append-only log -/

/-- CLAIM C8: whenever the disk read during a part-a GET fails one of the
staged checks — a short read, a stored key length above 256, a stored value
length above 1024, or a stored key differing from the requested key
(`readRecordA … = none`, exactly the code's early `return ""` paths) — the
engine treats the key as not present: `get` returns the empty string, the
whole engine state (cache, access order, index, write buffer, and the log
file itself) is untouched, and the network layer's reply for the empty value
is `$-1\r\n`. -/
theorem corrupt_record_read_is_miss (st : PartAState) (k : List Nat) (off sz : Nat)
    (hcache : assocFind st.data_ k = none)
    (hidx : assocFind st.disk_index k = some (off, sz))
    (hcorrupt : readRecordA st.dataFile off k = none) :
    partA_get st k = ([], st) ∧ respGet [] = "$-1\r\n".data := by
  unfold partA_get
  refine ⟨?_, by decide⟩
  simp [hcache, hidx, hcorrupt]

/-- Witness for C8: an empty log file (every read is short) with an index
entry pointing at offset 0 for key `[107]`. -/
theorem corrupt_record_read_is_miss_witness :
    partA_get ⟨[], [], [([107], (0, 9))], [], []⟩ [107] =
      ([], ⟨[], [], [([107], (0, 9))], [], []⟩) ∧
    respGet [] = "$-1\r\n".data :=
  corrupt_record_read_is_miss ⟨[], [], [([107], (0, 9))], [], []⟩ [107] 0 9
    (by decide) (by decide) (by decide)

theorem dec32_enc32 (n : Nat) (h : n < 4294967296) : dec32 (enc32 n) = n := by
  unfold dec32 enc32
  simp [List.getD]
  omega

theorem enc32_length (n : Nat) : (enc32 n).length = 4 := rfl

theorem partA_flush_fold_file (buf : List (List Nat × List Nat)) :
    ∀ (s : PartAState),
      (buf.foldl
        (fun s e =>
          let record := encRecord e.1 e.2
          { s with dataFile := s.dataFile ++ record,
                   disk_index := assocUpsert s.disk_index e.1
                     (s.dataFile.length, record.length) })
        s).dataFile =
      s.dataFile ++ (buf.map (fun e => encRecord e.1 e.2)).flatten := by
  induction buf with
  | nil => intro s; simp
  | cons e es ih =>
      intro s
      simp only [List.foldl_cons, List.map_cons, List.flatten_cons]
      rw [ih]
      simp [List.append_assoc]

theorem decodeLog_encRecord (k v R : List Nat)
    (hk : k.length < 4294967296) (hv : v.length < 4294967296) (fuel : Nat) :
    decodeLog (fuel + 1) (encRecord k v ++ R) =
      (decodeLog fuel R).map (fun rest => (k, v) :: rest) := by
  have take4 : ∀ (X : List Nat) (n : Nat), List.take 4 (enc32 n ++ X) = enc32 n :=
    fun X n => by rw [show (4 : Nat) = (enc32 n).length from rfl, List.take_left]
  have drop4 : ∀ (X : List Nat) (n : Nat), List.drop 4 (enc32 n ++ X) = X :=
    fun X n => by rw [show (4 : Nat) = (enc32 n).length from rfl, List.drop_left]
  have hne : encRecord k v ++ R ≠ [] := by
    intro h
    have hl := congrArg List.length h
    simp [encRecord, enc32] at hl
  have hshape : encRecord k v ++ R =
      enc32 k.length ++ (k ++ (enc32 v.length ++ (v ++ R))) := by
    simp [encRecord, List.append_assoc]
  rw [decodeLog.eq_def]
  rw [if_neg hne]
  simp only
  rw [hshape]
  rw [if_neg (show ¬ (enc32 k.length ++ (k ++ (enc32 v.length ++ (v ++ R)))).length < 4
    from by simp [enc32])]
  rw [take4 (k ++ (enc32 v.length ++ (v ++ R))) k.length,
    drop4 (k ++ (enc32 v.length ++ (v ++ R))) k.length]
  rw [dec32_enc32 k.length hk]
  rw [if_neg (show ¬ (k ++ (enc32 v.length ++ (v ++ R))).length < k.length from by simp)]
  rw [List.take_left, List.drop_left]
  rw [if_neg (show ¬ (enc32 v.length ++ (v ++ R)).length < 4 from by simp [enc32])]
  rw [take4 (v ++ R) v.length, drop4 (v ++ R) v.length]
  rw [dec32_enc32 v.length hv]
  rw [if_neg (show ¬ (v ++ R).length < v.length from by simp)]
  rw [List.take_left, List.drop_left]
  cases decodeLog fuel R <;> rfl

/-- CLAIM C9 (amended): part-a `flush_write_buffer` appends exactly the
little-endian records of the buffered pairs to `data.dat` (the previous file
contents stay in place as a prefix — the log is only ever appended to),
clears the buffer, and decoding a log consisting of encoded records recovers
exactly the sequence of pairs written. -/
theorem log_append_roundtrip (st : PartAState) (pairs : List (List Nat × List Nat))
    (hb : ∀ p ∈ pairs, p.1.length < 4294967296 ∧ p.2.length < 4294967296) :
    (partA_flush st).dataFile =
      st.dataFile ++ (st.write_buffer.map (fun e => encRecord e.1 e.2)).flatten ∧
    (partA_flush st).write_buffer = [] ∧
    decodeLog pairs.length ((pairs.map (fun e => encRecord e.1 e.2)).flatten) =
      some pairs := by
  refine ⟨?_, ?_, ?_⟩
  · unfold partA_flush
    cases hbuf : st.write_buffer with
    | nil => simp
    | cons e es =>
        rw [if_neg (by simp)]
        simp only
        rw [partA_flush_fold_file]
  · unfold partA_flush
    cases hbuf : st.write_buffer with
    | nil => simp [hbuf]
    | cons e es => rw [if_neg (by simp)]
  · induction pairs with
    | nil => rfl
    | cons p ps ih =>
        obtain ⟨pk, pv⟩ := p
        have hp := hb (pk, pv) (List.mem_cons_self _ _)
        simp only [List.map_cons, List.flatten_cons, List.length_cons]
        rw [decodeLog_encRecord pk pv _ hp.1 hp.2]
        rw [ih (fun q hq => hb q (List.mem_cons_of_mem _ hq))]
        rfl

/-- Witness for C9 (amended) at a two-record buffer appended to a non-empty
log. -/
theorem log_append_roundtrip_witness :
    (partA_flush ⟨[], [], [], [([1], [2]), ([3], [4, 5])], [9, 9]⟩).dataFile =
      [9, 9] ++ (([([1], [2]), ([3], [4, 5])].map
        (fun e => encRecord e.1 e.2)).flatten : List Nat) ∧
    (partA_flush ⟨[], [], [], [([1], [2]), ([3], [4, 5])], [9, 9]⟩).write_buffer = [] ∧
    decodeLog 2 (([([1], [2]), ([3], [4, 5])].map
        (fun e => encRecord e.1 e.2)).flatten : List Nat) =
      some [([1], [2]), ([3], [4, 5])] :=
  log_append_roundtrip ⟨[], [], [], [([1], [2]), ([3], [4, 5])], [9, 9]⟩
    [([1], [2]), ([3], [4, 5])] (by decide)

/-! ## Write-behind queue bookkeeping (towards C3) -/

theorem qval_foldl_acc (k : List Char) (q : List (List Char × List Char)) :
    ∀ a, q.foldl (fun acc p => if p.1 = k then some p.2 else acc) a =
      match qval k q with
      | some x => some x
      | none => a := by
  induction q with
  | nil => intro a; rfl
  | cons p q' ih =>
      intro a
      have h1 : (p :: q').foldl (fun acc p => if p.1 = k then some p.2 else acc) a =
          q'.foldl (fun acc p => if p.1 = k then some p.2 else acc)
            (if p.1 = k then some p.2 else a) := rfl
      have h2 : qval k (p :: q') =
          q'.foldl (fun acc p => if p.1 = k then some p.2 else acc)
            (if p.1 = k then some p.2 else none) := rfl
      rw [h1, ih, h2, ih]
      by_cases hp : p.1 = k
      · cases qval k q' <;> simp [hp]
      · cases qval k q' <;> simp [hp]

theorem qval_cons (k j w : List Char) (q : List (List Char × List Char)) :
    qval k ((j, w) :: q) =
      match qval k q with
      | some x => some x
      | none => if j = k then some w else none := by
  have h2 : qval k ((j, w) :: q) =
      q.foldl (fun acc p => if p.1 = k then some p.2 else acc)
        (if j = k then some w else none) := rfl
  rw [h2, qval_foldl_acc]

theorem qval_append (k j w : List Char) (q : List (List Char × List Char)) :
    qval k (q ++ [(j, w)]) = if j = k then some w else qval k q := by
  unfold qval
  rw [List.foldl_append]
  rfl

theorem foldl_diskPut_find (k : List Char) (q : List (List Char × List Char)) :
    ∀ d : DiskMap,
      assocFind (q.foldl (fun d p => diskPut d p.1 p.2) d) k =
        match qval k q with
        | some x => some x
        | none => assocFind d k := by
  induction q with
  | nil => intro d; rfl
  | cons p q' ih =>
      intro d
      simp only [List.foldl_cons]
      rw [ih, qval_cons]
      cases hq : qval k q' with
      | some x => rfl
      | none =>
          by_cases hp : p.1 = k
          · simp only [hp, if_true]
            show assocFind (assocUpsert d k p.2) k = some p.2
            exact assocFind_upsert_self d k p.2
          · simp only [hp, if_false]
            exact assocFind_upsert_other d k p.1 p.2 hp

theorem del_state (e : Engine) (j : List Char) :
    (e.del j).2.queue = e.queue ∧
      ((e.del j).2.disk = e.disk ∨ (e.del j).2.disk = assocErase e.disk j) := by
  unfold Engine.del
  cases hg : e.lru.get j with
  | mk hit lru' =>
      cases hit <;> cases hd : assocFind e.disk j <;> simp

theorem get_state (e : Engine) (j : List Char) :
    (e.get j).2.queue = e.queue ∧ (e.get j).2.disk = e.disk := by
  unfold Engine.get
  cases hg : e.lru.get j with
  | mk hit lru' =>
      cases hit <;> cases hd : assocFind e.disk j <;> simp

/-- A client operation that does not write key `k` (and a worker or sync
step, which only moves queued writes to disk) preserves what the disk will
hold at `k` once the queue drains. -/
theorem resolve_step (e : Engine) (k : List Char) (op : Op)
    (hop : ¬ touchesKey k op) : resolve k (runOp e op) = resolve k e := by
  cases op with
  | set j w =>
      have hj : j ≠ k := hop
      show resolve k (e.put j w).2 = resolve k e
      rw [engine_put_eq]
      unfold resolve
      simp only
      rw [qval_append, if_neg hj]
  | del j =>
      have hj : j ≠ k := hop
      show resolve k (e.del j).2 = resolve k e
      obtain ⟨hq, hd⟩ := del_state e j
      unfold resolve
      rw [hq]
      rcases hd with hd | hd <;> rw [hd]
      rw [assocFind_erase_other e.disk k j hj]
  | get j =>
      show resolve k (e.get j).2 = resolve k e
      obtain ⟨hq, hd⟩ := get_state e j
      unfold resolve
      rw [hq, hd]
  | work =>
      show resolve k e.workerStep = resolve k e
      unfold Engine.workerStep
      cases hq : e.queue with
      | nil => rfl
      | cons p rest =>
          obtain ⟨j, w⟩ := p
          unfold resolve
          simp only
          rw [hq, qval_cons]
          cases hqr : qval k rest with
          | some x => rfl
          | none =>
              by_cases hj : j = k
              · simp only [hj, if_true]
                show assocFind (diskPut e.disk k w) k = some w
                unfold diskPut
                rw [assocFind_upsert_self]
              · simp only [hj, if_false]
                exact assocFind_upsert_other e.disk k j w hj
  | sync =>
      show resolve k e.sync = resolve k e
      unfold Engine.sync resolve
      simp only
      rw [foldl_diskPut_find]
      cases qval k e.queue <;> rfl

/-- Immediately after `put k v`, the queue's last entry for `k` is `(k, v)`. -/
theorem resolve_after_set (e : Engine) (k v : List Char) :
    resolve k (e.put k v).2 = some v := by
  rw [engine_put_eq]
  unfold resolve
  simp only
  rw [qval_append, if_pos rfl]

theorem resolve_runOps (k : List Char) (ops : List Op)
    (hops : ∀ op ∈ ops, ¬ touchesKey k op) :
    ∀ e, resolve k (runOps e ops) = resolve k e := by
  induction ops with
  | nil => intro e; rfl
  | cons op ops' ih =>
      intro e
      show resolve k (runOps (runOp e op) ops') = resolve k e
      rw [ih (fun o ho => hops o (List.mem_cons_of_mem op ho)) (runOp e op),
        resolve_step e k op (hops op (List.mem_cons_self op ops'))]

/-! ## Goodness invariants for the part-b disk map and queue -/

theorem mem_assocUpsert {α β : Type} [DecidableEq α] (m : List (α × β)) (k : α) (v : β)
    (p : α × β) (hp : p ∈ assocUpsert m k v) : p ∈ m ∨ p = (k, v) := by
  induction m with
  | nil =>
      simp [assocUpsert] at hp
      exact Or.inr hp
  | cons e m' ih =>
      obtain ⟨a, b⟩ := e
      by_cases ha : a = k
      · simp only [assocUpsert, ha, if_true] at hp
        rcases List.mem_cons.1 hp with h | h
        · exact Or.inr h
        · exact Or.inl (List.mem_cons_of_mem _ h)
      · simp only [assocUpsert, ha, if_false] at hp
        rcases List.mem_cons.1 hp with h | h
        · exact Or.inl (by rw [h]; exact List.mem_cons_self _ _)
        · rcases ih h with h2 | h2
          · exact Or.inl (List.mem_cons_of_mem _ h2)
          · exact Or.inr h2

theorem keys_assocUpsert {α β : Type} [DecidableEq α] (m : List (α × β)) (k : α) (v : β) :
    (assocUpsert m k v).map Prod.fst = m.map Prod.fst ∨
      ((assocUpsert m k v).map Prod.fst = m.map Prod.fst ++ [k] ∧
        k ∉ m.map Prod.fst) := by
  induction m with
  | nil =>
      right
      simp [assocUpsert]
  | cons e m' ih =>
      obtain ⟨a, b⟩ := e
      by_cases ha : a = k
      · left
        simp [assocUpsert, ha]
      · rcases ih with h | ⟨h, hk⟩
        · left
          simp [assocUpsert, ha, h]
        · right
          constructor
          · simp [assocUpsert, ha, h]
          · simp only [List.map_cons, List.mem_cons]
            rintro (h2 | h2)
            · exact ha h2.symm
            · exact hk h2

theorem keysNodup_assocUpsert {β : Type} (m : List (List Char × β))
    (k : List Char) (v : β) (hm : keysNodup m) : keysNodup (assocUpsert m k v) := by
  rcases keys_assocUpsert m k v with h | ⟨h, hk⟩
  · unfold keysNodup at *
    rw [h]; exact hm
  · unfold keysNodup at *
    rw [h]
    simp [List.nodup_append, hm, hk]

theorem assocErase_sublist {α β : Type} [DecidableEq α] (m : List (α × β)) (j : α) :
    (assocErase m j).Sublist m := by
  induction m with
  | nil => simp [assocErase]
  | cons e m' ih =>
      obtain ⟨a, b⟩ := e
      by_cases ha : a = j
      · simp only [assocErase, ha, if_true]
        exact List.sublist_cons_of_sublist _ (List.Sublist.refl m')
      · simp only [assocErase, ha, if_false]
        exact List.Sublist.cons₂ _ ih

theorem keysNodup_assocErase {β : Type} (m : List (List Char × β))
    (j : List Char) (hm : keysNodup m) : keysNodup (assocErase m j) :=
  List.Nodup.sublist (List.Sublist.map Prod.fst (assocErase_sublist m j)) hm

theorem goodDisk_diskPut (m : DiskMap) (k v : List Char)
    (hm : goodDisk m) (hk : goodKey k) (hv : goodVal v) :
    goodDisk (diskPut m k v) := by
  refine ⟨keysNodup_assocUpsert m k v hm.1, ?_⟩
  intro p hp
  rcases mem_assocUpsert m k v p hp with h | h
  · exact hm.2 p h
  · rw [h]; exact ⟨hk, hv⟩

theorem goodDisk_assocErase (m : DiskMap) (j : List Char) (hm : goodDisk m) :
    goodDisk (assocErase m j) := by
  refine ⟨keysNodup_assocErase m j hm.1, ?_⟩
  intro p hp
  exact hm.2 p (List.Sublist.mem hp (assocErase_sublist m j))

theorem goodDisk_foldl (q : List (List Char × List Char)) :
    ∀ d : DiskMap, goodDisk d → goodQueue q →
      goodDisk (q.foldl (fun d p => diskPut d p.1 p.2) d) := by
  induction q with
  | nil => intro d hd _; exact hd
  | cons p q' ih =>
      intro d hd hq
      simp only [List.foldl_cons]
      have hp := hq p (List.mem_cons_self p q')
      exact ih _ (goodDisk_diskPut d p.1 p.2 hd hp.1 hp.2)
        (fun x hx => hq x (List.mem_cons_of_mem p hx))

theorem good_runOp (e : Engine) (op : Op) (hop : goodOp op)
    (hd : goodDisk e.disk) (hq : goodQueue e.queue) :
    goodDisk (runOp e op).disk ∧ goodQueue (runOp e op).queue := by
  cases op with
  | set j w =>
      show goodDisk (e.put j w).2.disk ∧ goodQueue (e.put j w).2.queue
      rw [engine_put_eq]
      refine ⟨hd, ?_⟩
      intro p hp
      rcases List.mem_append.1 hp with h | h
      · exact hq p h
      · rw [List.mem_singleton.1 h]
        exact hop
  | del j =>
      show goodDisk (e.del j).2.disk ∧ goodQueue (e.del j).2.queue
      obtain ⟨hques, hdisk⟩ := del_state e j
      rw [hques]
      refine ⟨?_, hq⟩
      rcases hdisk with h | h <;> rw [h]
      · exact hd
      · exact goodDisk_assocErase e.disk j hd
  | get j =>
      show goodDisk (e.get j).2.disk ∧ goodQueue (e.get j).2.queue
      obtain ⟨hques, hdisk⟩ := get_state e j
      rw [hques, hdisk]
      exact ⟨hd, hq⟩
  | work =>
      show goodDisk e.workerStep.disk ∧ goodQueue e.workerStep.queue
      unfold Engine.workerStep
      cases hqs : e.queue with
      | nil => exact ⟨hd, hq⟩
      | cons p rest =>
          obtain ⟨j, w⟩ := p
          rw [hqs] at hq
          have hp := hq (j, w) (List.mem_cons_self _ _)
          exact ⟨goodDisk_diskPut e.disk j w hd hp.1 hp.2,
            fun x hx => hq x (List.mem_cons_of_mem _ hx)⟩
  | sync =>
      show goodDisk e.sync.disk ∧ goodQueue e.sync.queue
      unfold Engine.sync
      refine ⟨goodDisk_foldl e.queue e.disk hd hq, ?_⟩
      intro p hp
      simp at hp

theorem good_runOps (ops : List Op) (hops : ∀ op ∈ ops, goodOp op) :
    ∀ e, goodDisk e.disk → goodQueue e.queue →
      goodDisk (runOps e ops).disk ∧ goodQueue (runOps e ops).queue := by
  induction ops with
  | nil => intro e hd hq; exact ⟨hd, hq⟩
  | cons op ops' ih =>
      intro e hd hq
      have h1 := good_runOp e op (hops op (List.mem_cons_self op ops')) hd hq
      exact ih (fun o ho => hops o (List.mem_cons_of_mem op ho)) (runOp e op) h1.1 h1.2

/-! ## `save_data` / `load_data` round trip -/

theorem getLines_line (line rest : List Char) (h : '\n' ∉ line) :
    getLines (line ++ '\n' :: rest) = line :: getLines rest := by
  induction line with
  | nil => rfl
  | cons c cs ih =>
      have hc : c ≠ '\n' := fun hh => h (hh ▸ List.mem_cons_self c cs)
      have ih' := ih (fun hm => h (List.mem_cons_of_mem c hm))
      simp only [List.cons_append]
      rw [getLines.eq_def]
      simp [hc, ih']

theorem splitAtEq_line (k v : List Char) (h : '=' ∉ k) :
    splitAtEq (k ++ '=' :: v) = some (k, v) := by
  induction k with
  | nil => rfl
  | cons c cs ih =>
      have hc : c ≠ '=' := fun hh => h (hh ▸ List.mem_cons_self c cs)
      have ih' := ih (fun hm => h (List.mem_cons_of_mem c hm))
      simp only [List.cons_append]
      rw [splitAtEq.eq_def]
      simp [hc, ih']

theorem assocFind_eq_none_of_not_mem_keys {β : Type} (m : List (List Char × β))
    (k : List Char) (h : k ∉ m.map Prod.fst) : assocFind m k = none := by
  induction m with
  | nil => rfl
  | cons e m' ih =>
      obtain ⟨a, b⟩ := e
      simp only [List.map_cons, List.mem_cons] at h
      push_neg at h
      simp only [assocFind, if_neg (fun hh : a = k => h.1 hh.symm)]
      exact ih h.2

theorem load_render (m : DiskMap) (hm : goodDisk m) :
    ∀ (acc : DiskMap) (k' : List Char),
      assocFind (loadLines (getLines (renderDisk m)) acc) k' =
        match assocFind m k' with
        | some v => some v
        | none => assocFind acc k' := by
  induction m with
  | nil => intro acc k'; rfl
  | cons e m' ih =>
      intro acc k'
      obtain ⟨k, v⟩ := e
      have hgood := hm.2 (k, v) (List.mem_cons_self _ _)
      have hkeq : '=' ∉ k := hgood.1.1
      have hknl : '\n' ∉ k := hgood.1.2
      have hvnl : '\n' ∉ v := hgood.2
      have hm' : goodDisk m' := by
        refine ⟨?_, fun p hp => hm.2 p (List.mem_cons_of_mem _ hp)⟩
        have := hm.1
        unfold keysNodup at this ⊢
        simp only [List.map_cons] at this
        exact this.of_cons
      have hline : '\n' ∉ k ++ '=' :: v := by
        intro hmem
        rcases List.mem_append.1 hmem with hh | hh
        · exact hknl hh
        · rcases List.mem_cons.1 hh with hh2 | hh2
          · exact absurd hh2.symm (by decide)
          · exact hvnl hh2
      have hshape : renderDisk ((k, v) :: m') =
          (k ++ '=' :: v) ++ '\n' :: renderDisk m' := by
        simp [renderDisk, List.append_assoc]
      rw [hshape, getLines_line _ _ hline]
      show assocFind (loadLines ((k ++ '=' :: v) :: getLines (renderDisk m')) acc) k' = _
      rw [loadLines.eq_def]
      simp only [splitAtEq_line k v hkeq]
      rw [ih hm' (assocUpsert acc k v) k']
      by_cases hk : k = k'
      · subst hk
        have hnone : assocFind m' k = none := by
          apply assocFind_eq_none_of_not_mem_keys
          have := hm.1
          unfold keysNodup at this
          simp only [List.map_cons] at this
          exact (List.nodup_cons.1 this).1
        rw [hnone]
        simp [assocFind, assocFind_upsert_self]
      · simp only [assocFind, if_neg hk]
        cases hfind : assocFind m' k' with
        | some x => rfl
        | none =>
            simp only
            rw [assocFind_upsert_other acc k' k v hk]

theorem loadDisk_renderDisk (m : DiskMap) (hm : goodDisk m) (k : List Char) :
    assocFind (loadDisk (renderDisk m)) k = assocFind m k := by
  unfold loadDisk
  rw [load_render m hm [] k]
  cases assocFind m k <;> rfl

theorem restart_getStr (e : Engine) (cap : Nat) (k v : List Char)
    (h : assocFind (loadDisk (renderDisk e.disk)) k = some v) :
    ((e.restart cap).getStr k).1 = v := by
  unfold Engine.restart Engine.getStr Engine.get
  simp [show (LRUCache.empty cap).get k = (none, LRUCache.empty cap) from rfl, h]

theorem runOps_append (e : Engine) (xs ys : List Op) :
    runOps e (xs ++ ys) = runOps (runOps e xs) ys := by
  unfold runOps
  rw [List.foldl_append]

theorem goodDisk_nil : goodDisk ([] : DiskMap) :=
  ⟨List.nodup_nil, fun p hp => absurd hp (List.not_mem_nil p)⟩

theorem goodQueue_nil : goodQueue [] :=
  fun p hp => absurd hp (List.not_mem_nil p)

/-- CLAIM C3 (amended): for every operation sequence `pre ++ SET k v ++ post`
ending with `sync()`, in which all SETs use keys free of `'='` and `'\n'` and
values free of `'\n'`, and in which no operation after the tracked
`SET k v` writes key `k` again (worker iterations and syncs may be
interleaved anywhere), a GET of `k` after a full process restart returns `v`,
and for non-empty `v` the wire reply is the bulk string of `v`. -/
theorem sync_restart_durability (pre post : List Op) (k v : List Char)
    (cap cap' : Nat)
    (hgoodpre : ∀ op ∈ pre, goodOp op)
    (hk : goodKey k) (hv : goodVal v) (hvne : v ≠ [])
    (hgoodpost : ∀ op ∈ post, goodOp op)
    (hpost : ∀ op ∈ post, ¬ touchesKey k op) :
    (((runOps (Engine.empty cap)
        (pre ++ Op.set k v :: (post ++ [Op.sync]))).restart cap').getStr k).1 = v ∧
    respGet (((runOps (Engine.empty cap)
        (pre ++ Op.set k v :: (post ++ [Op.sync]))).restart cap').getStr k).1 =
      '$' :: natStr v.length ++ crlf ++ v ++ crlf := by
  have hsplit : runOps (Engine.empty cap) (pre ++ Op.set k v :: (post ++ [Op.sync])) =
      (runOps (runOp (runOps (Engine.empty cap) pre) (Op.set k v)) post).sync := by
    rw [runOps_append]
    show runOps (runOp (runOps (Engine.empty cap) pre) (Op.set k v)) (post ++ [Op.sync]) = _
    rw [runOps_append]
    rfl
  have hresolve : resolve k (runOps (runOp (runOps (Engine.empty cap) pre)
      (Op.set k v)) post) = some v := by
    rw [resolve_runOps k post hpost]
    exact resolve_after_set (runOps (Engine.empty cap) pre) k v
  have hfind : assocFind (runOps (Engine.empty cap)
      (pre ++ Op.set k v :: (post ++ [Op.sync]))).disk k = some v := by
    rw [hsplit]
    show assocFind ((runOps (runOp (runOps (Engine.empty cap) pre)
      (Op.set k v)) post).queue.foldl (fun d p => diskPut d p.1 p.2)
      (runOps (runOp (runOps (Engine.empty cap) pre) (Op.set k v)) post).disk) k = some v
    rw [foldl_diskPut_find]
    unfold resolve at hresolve
    exact hresolve
  have hgoodall : ∀ op ∈ pre ++ Op.set k v :: (post ++ [Op.sync]), goodOp op := by
    intro op hop
    rcases List.mem_append.1 hop with h | h
    · exact hgoodpre op h
    rcases List.mem_cons.1 h with h2 | h2
    · rw [h2]; exact ⟨hk, hv⟩
    rcases List.mem_append.1 h2 with h3 | h3
    · exact hgoodpost op h3
    · rw [List.mem_singleton.1 h3]; trivial
  have hgoodfinal := good_runOps _ hgoodall (Engine.empty cap) goodDisk_nil goodQueue_nil
  have hload : assocFind (loadDisk (renderDisk (runOps (Engine.empty cap)
      (pre ++ Op.set k v :: (post ++ [Op.sync]))).disk)) k = some v := by
    rw [loadDisk_renderDisk _ hgoodfinal.1 k]
    exact hfind
  have hget := restart_getStr _ cap' k v hload
  refine ⟨hget, ?_⟩
  rw [hget]
  unfold respGet
  rw [if_neg hvne]

/-- Witness for C3 (amended): the two-operation sequence `SET k v; sync()`
followed by a restart. -/
theorem sync_restart_durability_witness :
    (((runOps (Engine.empty 1)
        ([] ++ Op.set "k".data "v".data :: ([] ++ [Op.sync]))).restart 1).getStr
        "k".data).1 = "v".data ∧
    respGet (((runOps (Engine.empty 1)
        ([] ++ Op.set "k".data "v".data :: ([] ++ [Op.sync]))).restart 1).getStr
        "k".data).1 =
      '$' :: natStr "v".data.length ++ crlf ++ "v".data ++ crlf :=
  sync_restart_durability [] [] "k".data "v".data 1 1
    (fun op hop => absurd hop (List.not_mem_nil op))
    ⟨by decide, by decide⟩ (show '\n' ∉ "v".data by decide) (by decide)
    (fun op hop => absurd hop (List.not_mem_nil op))
    (fun op hop => absurd hop (List.not_mem_nil op))
